import Mathlib

/-!
Verification of the `covers` token-stream rewriter (src/covers/src/lib.rs).

The crate rewrites the flat token sequence of a function definition:
`mocked` renames the original function (prefixing its name), keeps its body,
and emits a dispatcher with the original signature that delegates either to a
mock reference or to the renamed original; `mock` conditionally elevates a
function to public visibility or erases it in release builds.

The embedding below mirrors the Rust source item by item:

* `Token` / `Delim` model `proc_macro::TokenTree` / `Delimiter`; a token
  stream is a `List Token`.  `Token.toString` models the `Display` rendering
  (identifier/punct/literal text; groups print their delimiters around a
  space-joined body) — no claim depends on the exact spacing.
* Rust panics (`assert!`, `unwrap`) are modelled as `Option`/`Except`
  failures; `cfg!` flags become explicit `Bool` parameters, and the
  `ORIGINAL_FUNC_PREFIX` constant becomes the explicit `pfx` argument.
* `str::split(char)` is modelled by `splitChar`/`splitStr` (same semantics:
  substrings between separator occurrences, empties included, never an empty
  list of pieces); `HashMap` becomes an association list with unique keys via
  `mapInsert`/`mapGet` (insert overwrites in place, get finds the key).
* `mocked` builds a source string via `format!` and re-parses it with the
  external `proc_macro` tokenizer; the embedding stops at the composed string
  (`MockedResult.generated (renderCode parts)`), the re-tokenization being
  library code outside this repository.
-/

namespace Covers

inductive Delim where
  | paren
  | brace
  | bracket
  | none
deriving DecidableEq

inductive Token where
  | ident (s : String)
  | punct (s : String)
  | lit (s : String)
  | group (d : Delim) (ts : List Token)

/-- Rendering of the opening delimiter of a group, as `Display` prints it. -/
def delimOpen : Delim → String
  | .paren => "("
  | .brace => "\x7b"
  | .bracket => "["
  | .none => ""

/-- Rendering of the closing delimiter of a group, as `Display` prints it. -/
def delimClose : Delim → String
  | .paren => ")"
  | .brace => "\x7d"
  | .bracket => "]"
  | .none => ""

mutual

/-- Models `TokenTree::to_string`. -/
def Token.toString : Token → String
  | .ident s => s
  | .punct s => s
  | .lit s => s
  | .group d ts => delimOpen d ++ tokensToString ts ++ delimClose d

/-- Models `TokenStream` display for a list of tokens (space-joined). -/
def tokensToString : List Token → String
  | [] => ""
  | [t] => Token.toString t
  | t :: ts => Token.toString t ++ " " ++ tokensToString ts

end

/-- Models the `Stage` enum of the scan (discriminants 0..4). -/
inductive Stage where
  | Start
  | FnIdentFound
  | FnNameFound
  | FnArgsFound
  | FnBodyFound
deriving DecidableEq

/-- Integer discriminant of a `Stage`, as the `as i8` casts read it. -/
def Stage.rank : Stage → Int
  | .Start => 0
  | .FnIdentFound => 1
  | .FnNameFound => 2
  | .FnArgsFound => 3
  | .FnBodyFound => 4

/-- Models `fn cmp(current: &Stage, expected: Stage) -> i8`:
the difference of the discriminants (values stay in `[-4, 4]`, so the
`i8` arithmetic never wraps). -/
def cmp (current expected : Stage) : Int :=
  Stage.rank current - Stage.rank expected

/-- Models `str::split(sep)` on the character list of a string: the
(never empty) list of chunks between occurrences of `sep`. -/
def splitChar (sep : Char) : List Char → List (List Char)
  | [] => [[]]
  | c :: cs =>
    if c = sep then [] :: splitChar sep cs
    else
      match splitChar sep cs with
      | [] => [[c]]
      | h :: t => (c :: h) :: t

/-- Models `str::split(sep)` producing strings. -/
def splitStr (sep : Char) (s : String) : List String :=
  (splitChar sep s.data).map (fun cs => String.mk cs)

/-- Models `str::trim`: drop whitespace from both ends (the embedding uses
`Char.isWhitespace`, the ASCII fragment of Rust's Unicode predicate). -/
def trimStr (s : String) : String :=
  String.mk (((s.data.dropWhile Char.isWhitespace).reverse.dropWhile Char.isWhitespace).reverse)

/-- Models `str::to_lowercase` on the ASCII letters the options use. -/
def lowerStr (s : String) : String :=
  String.mk (s.data.map Char.toLower)

/-- Models `str::starts_with`. -/
def startsWithStr (s pre : String) : Bool :=
  pre.data.isPrefixOf s.data

/-- Association-list model of `HashMap<String, String>`: keys are unique,
`mapInsert` overwrites the binding of an existing key in place. -/
def mapInsert : List (String × String) → String → String → List (String × String)
  | [], k, v => [(k, v)]
  | (k', v') :: rest, k, v =>
    if k' = k then (k, v) :: rest else (k', v') :: mapInsert rest k v

/-- Association-list model of `HashMap::get`. -/
def mapGet : List (String × String) → String → Option String
  | [], _ => Option.none
  | (k', v') :: rest, k => if k' = k then Option.some v' else mapGet rest k

/-- Models `struct Params { reference: String, options: HashMap<String, String> }`. -/
structure Params where
  reference : String
  options : List (String × String)

/-- Processing of one extra parameter in `parse_params`: split on `=`,
trim and lower-case the parts, require exactly two of them (the
`assert!(entry.len() == 2)`), and insert into the options map. -/
def param_step (acc : Params) (param : String) : Except String Params :=
  match (splitStr '=' param).map (fun s => lowerStr (trimStr s)) with
  | [k, v] => Except.ok { acc with options := mapInsert acc.options k v }
  | _ => Except.error "Extra parameters should be provided in `key = value` format!"

/-- The `for param in params` loop of `parse_params`; the first failing
`assert!` aborts the invocation. -/
def fold_params : Params → List String → Except String Params
  | acc, [] => Except.ok acc
  | acc, p :: ps =>
    match param_step acc p with
    | Except.ok acc' => fold_params acc' ps
    | Except.error e => Except.error e

/-- Models `fn parse_params(args: TokenStream) -> Params`, taking the
display string of the argument stream (the Rust function's own first step).
Splits on commas, trims each element; the `assert!(!params.is_empty())`
guard is the first error case; the head element (trimmed again) becomes the
reference, the rest feed the options map. -/
def parse_params (argsStr : String) : Except String Params :=
  match (splitStr ',' argsStr).map trimStr with
  | [] => Except.error "At least fully-qualified reference to mock have to be provided!"
  | first :: rest => fold_params { reference := trimStr first, options := [] } rest

/-- Observation function used to state the last-write-wins property of the
options map: the values that the option elements `es` write to key `k`, in
order (an element writes to `k` when it splits on `=` into exactly two
parts whose trimmed, lower-cased first part is `k`). -/
def optionWrites (k : String) : List String → List String
  | [] => []
  | e :: es =>
    (match (splitStr '=' e).map (fun s => lowerStr (trimStr s)) with
     | [a, b] => if a = k then [b] else []
     | _ => []) ++ optionWrites k es

/-- Models `fn create_name_token(prefix: &str, token: &Ident) -> TokenTree`. -/
def create_name_token (pfx : String) (name : String) : Token :=
  Token.ident (pfx ++ name)

/-- Models `fn parse_one_arg(vec: &[TokenTree]) -> String`.  The Rust code
calls `.last().unwrap()`, which panics on an empty slice; the panic is the
`Option.none` result. -/
def parse_one_arg : List Token → Option String
  | [] => Option.none
  | first :: rest =>
    Option.some
      (if Token.toString (List.getLastD (first :: rest) first) = "self" then "self"
       else Token.toString first)

/-- Tests whether a token is the comma punctuation, as the
`TokenTree::Punct` / `punct.to_string() == ","` check does. -/
def isCommaPunct : Token → Bool
  | .punct s => s == ","
  | _ => false

/-- The token loop of `parse_args`: accumulate tokens of the current chunk
in `vec`; a top-level comma closes the chunk through `parse_one_arg`. -/
def parse_args_go : List Token → List Token → List String → Option (List String)
  | [], vec, args =>
    if vec.isEmpty then Option.some args
    else (parse_one_arg vec).map (fun a => args ++ [a])
  | t :: rest, vec, args =>
    if isCommaPunct t then
      match parse_one_arg vec with
      | Option.none => Option.none
      | Option.some a => parse_args_go rest [] (args ++ [a])
    else parse_args_go rest (vec ++ [t]) args

/-- Models `fn parse_args(group: &Group) -> String`, taking the group's
inner token stream.  Empty stream gives the empty string; otherwise the
chunks are joined with a comma and a space. -/
def parse_args (inner : List Token) : Option String :=
  if inner.isEmpty then Option.some ""
  else (parse_args_go inner [] []).map (fun args => String.intercalate ", " args)

/-- The mutable locals of the scan loop of `mocked`. -/
structure ScanState where
  stage : Stage
  original : List Token
  signature : List Token
  fn_orig_name : String
  fn_args_string : String
  is_impl_scope : Bool

/-- Initial values of the scan locals. -/
def initScan : ScanState :=
  { stage := Stage.Start, original := [], signature := [], fn_orig_name := "",
    fn_args_string := "", is_impl_scope := false }

/-- The wildcard arm of the scan `match`: tokens are copied into the
signature accumulator while the stage is below `FnBodyFound` and always
into the original accumulator. -/
def stepDefault (st : ScanState) (token : Token) : ScanState :=
  { st with
    signature := if cmp st.stage Stage.FnBodyFound < 0 then st.signature ++ [token] else st.signature,
    original := st.original ++ [token] }

/-- One iteration of the `for token in input` loop of `mocked`, arm for
arm.  The `parse_args` panic surfaces as `Option.none`. -/
def mockedStep (pfx : String) (st : ScanState) (token : Token) : Option ScanState :=
  match token with
  | .ident name =>
    if cmp st.stage Stage.FnIdentFound < 0 ∧ name = "fn" then
      Option.some { st with stage := Stage.FnIdentFound,
                            signature := st.signature ++ [token],
                            original := st.original ++ [token] }
    else if cmp st.stage Stage.FnIdentFound = 0 then
      Option.some { st with stage := Stage.FnNameFound,
                            signature := st.signature ++ [create_name_token "" name],
                            fn_orig_name := Token.toString (create_name_token pfx name),
                            original := st.original ++ [create_name_token pfx name] }
    else Option.some (stepDefault st token)
  | .group d inner =>
    if cmp st.stage Stage.FnArgsFound < 0 ∧ d = Delim.paren then
      match parse_args inner with
      | Option.none => Option.none
      | Option.some s =>
        Option.some { st with stage := Stage.FnArgsFound,
                              fn_args_string := s,
                              is_impl_scope := startsWithStr s "self," || s == "self",
                              signature := st.signature ++ [token],
                              original := st.original ++ [token] }
    else if cmp st.stage Stage.FnBodyFound < 0 ∧ d = Delim.brace then
      Option.some { st with stage := Stage.FnBodyFound,
                            original := st.original ++ [token] }
    else Option.some (stepDefault st token)
  | _ => Option.some (stepDefault st token)

/-- The whole scan loop from a given state over the remaining tokens. -/
def scanFrom (pfx : String) : ScanState → List Token → Option ScanState
  | st, [] => Option.some st
  | st, t :: ts =>
    match mockedStep pfx st t with
    | Option.none => Option.none
    | Option.some st' => scanFrom pfx st' ts

/-- The scan of `mocked` over the full input, from the initial locals. -/
def mockedScanList (pfx : String) (input : List Token) : Option ScanState :=
  scanFrom pfx initScan input

/-- Guard of the `TokenTree::Ident(ident) if ident.to_string() == x` arms. -/
def isIdentStr : Token → String → Bool
  | Token.ident s, x => s == x
  | _, _ => false

/-- Models `fn make_public(input: TokenStream) -> TokenStream` as its
`while let` loop: a `pub` identifier sets the flag (and is kept), the first
`fn` identifier triggers the optional insertion and copies the remainder
verbatim, anything else is copied. -/
def make_public_go : List Token → Bool → List Token
  | [], _ => []
  | t :: rest, is_public =>
    if isIdentStr t "pub" then t :: make_public_go rest true
    else if isIdentStr t "fn" then
      (if is_public then [] else [Token.ident "pub"]) ++ t :: rest
    else t :: make_public_go rest is_public

/-- Models `fn make_public`. -/
def make_public (input : List Token) : List Token :=
  make_public_go input false

/-- The named pieces substituted into the `format!` template of `mocked`. -/
structure CodeParts where
  fn_original : String
  fn_orig_name : String
  fn_mock_name : String
  signature : String
  arguments : String
  fq : String

/-- The `format!` template of `mocked` (the raw string literal), with the
pieces substituted. -/
def renderCode (p : CodeParts) : String :=
  "\n        " ++ p.fn_original ++ "\n\n        " ++ p.signature ++
  " \x7b\n            #[cfg(test)]\n            return " ++
  p.fn_mock_name ++ p.arguments ++
  ";\n            #[cfg(not(test))]\n            return " ++
  p.fq ++ p.fn_orig_name ++ p.arguments ++ ";\n        \x7d\n        "

/-- The computation of the `format!` arguments in `mocked` after the scan:
parse the invocation parameters, run the scan, OR the impl-scope flag with
the `scope = impl` option, and assemble the pieces.  `Option.none` is any
of the panics on this path. -/
def mockedParts (pfx : String) (argsStr : String) (input : List Token) : Option CodeParts :=
  match parse_params argsStr with
  | Except.error _ => Option.none
  | Except.ok args =>
    match mockedScanList pfx input with
    | Option.none => Option.none
    | Option.some st =>
      let is_impl_scope :=
        st.is_impl_scope || ((mapGet args.options "scope").filter (fun scope => scope == "impl")).isSome
      Option.some
        { fn_original := tokensToString (make_public st.original),
          fn_orig_name := st.fn_orig_name,
          fn_mock_name := args.reference,
          signature := tokensToString st.signature,
          arguments := "(" ++ st.fn_args_string ++ ")",
          fq := if is_impl_scope then "Self::" else "" }

/-- The two possible outcomes of `mocked`: the release-mode passthrough of
the input stream, or the composed source text that the external tokenizer
re-parses. -/
inductive MockedResult where
  | passthrough (ts : List Token)
  | generated (code : String)

/-- Models `pub fn mocked(args: TokenStream, input: TokenStream)`.  The
`cfg!(debug_assertions)` / `cfg!(test)` flags are explicit booleans, the
configured prefix is `pfx`, and `argsStr` is the display string of the
argument stream. -/
def mocked (debug_assertions test : Bool) (pfx : String) (argsStr : String)
    (input : List Token) : Option MockedResult :=
  if !(debug_assertions || test) then Option.some (MockedResult.passthrough input)
  else
    match mockedParts pfx argsStr input with
    | Option.none => Option.none
    | Option.some ps => Option.some (MockedResult.generated (renderCode ps))

/-- Models `pub fn mock(_args: TokenStream, input: TokenStream)`: in a
debug or test build the input is kept (elevated to public unless the
`no-pub` feature suppresses it); otherwise the stream is emptied. -/
def mock (debug_assertions test no_pub : Bool) (input : List Token) : List Token :=
  if debug_assertions || test then
    if no_pub then input else make_public input
  else []

/-! Helper lemmas. -/

theorem isIdentStr_iff (t : Token) (x : String) : isIdentStr t x = true ↔ t = Token.ident x := by
  cases t <;> simp [isIdentStr]

theorem isIdentStr_false {t : Token} {x : String} (h : t ≠ Token.ident x) :
    isIdentStr t x = false := by
  cases hb : isIdentStr t x
  · rfl
  · exact absurd ((isIdentStr_iff t x).mp hb) h

theorem make_public_go_no_fn (ts : List Token) (flag : Bool)
    (h : Token.ident "fn" ∉ ts) : make_public_go ts flag = ts := by
  induction ts generalizing flag with
  | nil => rfl
  | cons t rest ih =>
    simp only [List.mem_cons, not_or] at h
    have hf : isIdentStr t "fn" = false := isIdentStr_false (Ne.symm h.1)
    by_cases hp : isIdentStr t "pub" = true
    · simp [make_public_go, hp, ih true h.2]
    · simp only [Bool.not_eq_true] at hp
      simp [make_public_go, hp, hf, ih flag h.2]

theorem make_public_go_keep (pre rest : List Token) (flag : Bool)
    (h : Token.ident "fn" ∉ pre) (hp : flag = true ∨ Token.ident "pub" ∈ pre) :
    make_public_go (pre ++ Token.ident "fn" :: rest) flag =
      pre ++ Token.ident "fn" :: rest := by
  induction pre generalizing flag with
  | nil =>
    rcases hp with hp | hp
    · subst hp
      simp [make_public_go, isIdentStr]
    · exact absurd hp (List.not_mem_nil _)
  | cons t pre ih =>
    simp only [List.mem_cons, not_or] at h
    have hf : isIdentStr t "fn" = false := isIdentStr_false (Ne.symm h.1)
    by_cases hpu : isIdentStr t "pub" = true
    · simp [make_public_go, hpu, ih true h.2 (Or.inl rfl)]
    · simp only [Bool.not_eq_true] at hpu
      have ht : t ≠ Token.ident "pub" := by
        intro he
        rw [he] at hpu
        simp [isIdentStr] at hpu
      have hp' : flag = true ∨ Token.ident "pub" ∈ pre := by
        rcases hp with hp | hp
        · exact Or.inl hp
        · rcases List.mem_cons.mp hp with he | he
          · exact absurd he.symm ht
          · exact Or.inr he
      simp [make_public_go, hpu, hf, ih flag h.2 hp']

theorem make_public_go_insert (pre rest : List Token)
    (h : Token.ident "fn" ∉ pre) (hp : Token.ident "pub" ∉ pre) :
    make_public_go (pre ++ Token.ident "fn" :: rest) false =
      pre ++ Token.ident "pub" :: Token.ident "fn" :: rest := by
  induction pre with
  | nil =>
    simp [make_public_go, isIdentStr]
  | cons t pre ih =>
    simp only [List.mem_cons, not_or] at h hp
    have hf : isIdentStr t "fn" = false := isIdentStr_false (Ne.symm h.1)
    have hpu : isIdentStr t "pub" = false := isIdentStr_false (Ne.symm hp.1)
    simp [make_public_go, hpu, hf, ih h.2 hp.2]

theorem exists_first_fn (ts : List Token) :
    Token.ident "fn" ∉ ts ∨
      ∃ pre rest, ts = pre ++ Token.ident "fn" :: rest ∧ Token.ident "fn" ∉ pre := by
  induction ts with
  | nil => exact Or.inl (List.not_mem_nil _)
  | cons t rest ih =>
    by_cases ht : t = Token.ident "fn"
    · exact Or.inr ⟨[], rest, by simp [ht], List.not_mem_nil _⟩
    · rcases ih with h | ⟨pre, rest', heq, hpre⟩
      · refine Or.inl ?_
        simp only [List.mem_cons, not_or]
        exact ⟨fun he => ht he.symm, h⟩
      · refine Or.inr ⟨t :: pre, rest', by simp [heq], ?_⟩
        simp only [List.mem_cons, not_or]
        exact ⟨fun he => ht he.symm, hpre⟩

theorem make_public_no_fn (ts : List Token) (h : Token.ident "fn" ∉ ts) :
    make_public ts = ts := by
  simpa only [make_public] using make_public_go_no_fn ts false h

theorem make_public_keep (pre rest : List Token)
    (h : Token.ident "fn" ∉ pre) (hp : Token.ident "pub" ∈ pre) :
    make_public (pre ++ Token.ident "fn" :: rest) = pre ++ Token.ident "fn" :: rest := by
  simpa only [make_public] using make_public_go_keep pre rest false h (Or.inr hp)

theorem make_public_insert (pre rest : List Token)
    (h : Token.ident "fn" ∉ pre) (hp : Token.ident "pub" ∉ pre) :
    make_public (pre ++ Token.ident "fn" :: rest) =
      pre ++ Token.ident "pub" :: Token.ident "fn" :: rest := by
  simpa only [make_public] using make_public_go_insert pre rest h hp

/-! Claim theorems. -/

/-- Claim C1: for a build mode that is neither a test build nor a debug
build, `mocked` returns its input token stream unchanged (the passthrough
branch) and `mock` returns the empty token stream. -/
theorem mocked_mock_release_passthrough (debug_assertions test no_pub : Bool)
    (pfx argsStr : String) (input : List Token)
    (hd : debug_assertions = false) (ht : test = false) :
    mocked debug_assertions test pfx argsStr input =
      Option.some (MockedResult.passthrough input) ∧
    mock debug_assertions test no_pub input = [] := by
  subst hd ht
  exact ⟨rfl, rfl⟩

/-- Witness for C1 at a concrete release-mode invocation. -/
theorem mocked_mock_release_passthrough_witness :
    mocked false false "_" "" [Token.ident "x"] =
      Option.some (MockedResult.passthrough [Token.ident "x"]) ∧
    mock false false false [Token.ident "x"] = [] :=
  mocked_mock_release_passthrough false false false "_" "" [Token.ident "x"] rfl rfl

/-- Claim C2 (code bug): on the empty invocation-argument text the parser
does NOT fail with the reference-required error; `split` always yields at
least one element, so the `assert!(!params.is_empty())` guard is vacuous
and the parse succeeds with an empty mock reference. -/
theorem parse_params_empty_input_succeeds :
    parse_params "" = Except.ok { reference := "", options := [] } := rfl

/-- Claim C10: `parse_args` hits the `.last().unwrap()` panic (modelled as
`Option.none`) on a non-empty parameter list whose first top-level comma is
not preceded by any token, instead of returning a string. -/
theorem parse_args_empty_chunk_fails :
    parse_args [Token.punct ","] = Option.none ∧ parse_one_arg [] = Option.none :=
  ⟨rfl, rfl⟩

/-- Claim C4: the visibility elevator `make_public` is idempotent — a
second application never inserts a second `pub` keyword. -/
theorem make_public_idempotent (ts : List Token) :
    make_public (make_public ts) = make_public ts := by
  rcases exists_first_fn ts with h | ⟨pre, rest, rfl, hpre⟩
  · have h1 := make_public_no_fn ts h
    rw [h1]
    exact h1
  · by_cases hpub : Token.ident "pub" ∈ pre
    · have h1 := make_public_keep pre rest hpre hpub
      rw [h1]
      exact h1
    · have h1 := make_public_insert pre rest hpre hpub
      rw [h1]
      have hpre' : Token.ident "fn" ∉ pre ++ [Token.ident "pub"] := by
        simp only [List.mem_append, List.mem_cons, List.not_mem_nil, or_false, not_or]
        exact ⟨hpre, by simp⟩
      have hpub' : Token.ident "pub" ∈ pre ++ [Token.ident "pub"] := by simp
      have h2 := make_public_keep (pre ++ [Token.ident "pub"]) rest hpre' hpub'
      simpa using h2

/-- Claim C5: `make_public` makes no change when a `pub` keyword occurs
before the first `fn` keyword, and otherwise inserts `pub` immediately
before the first `fn` keyword, copying every remaining token unchanged. -/
theorem make_public_inserts_before_fn (pre rest : List Token)
    (hfn : Token.ident "fn" ∉ pre) :
    (Token.ident "pub" ∈ pre →
      make_public (pre ++ Token.ident "fn" :: rest) = pre ++ Token.ident "fn" :: rest) ∧
    (Token.ident "pub" ∉ pre →
      make_public (pre ++ Token.ident "fn" :: rest) =
        pre ++ Token.ident "pub" :: Token.ident "fn" :: rest) := by
  exact ⟨fun hpub => make_public_keep pre rest hfn hpub,
         fun hpub => make_public_insert pre rest hfn hpub⟩

/-- Witness for C5: a bare `fn` with no preceding tokens gets `pub`
inserted in front of it. -/
theorem make_public_inserts_before_fn_witness :
    make_public [Token.ident "fn", Token.ident "f"] =
      [Token.ident "pub", Token.ident "fn", Token.ident "f"] :=
  (make_public_inserts_before_fn [] [Token.ident "f"] (List.not_mem_nil _)).2
    (List.not_mem_nil _)

theorem splitChar_ne_nil (sep : Char) (cs : List Char) : splitChar sep cs ≠ [] := by
  cases cs with
  | nil => simp [splitChar]
  | cons c cs =>
    simp only [splitChar]
    split
    · simp
    · split <;> simp

theorem splitChar_length (sep : Char) (cs : List Char) :
    (splitChar sep cs).length = cs.count sep + 1 := by
  induction cs with
  | nil => simp [splitChar]
  | cons c cs ih =>
    by_cases hc : c = sep
    · subst hc
      simp [splitChar, List.count_cons, ih]
    · rw [splitChar, if_neg hc]
      cases hsp : splitChar sep cs with
      | nil => exact absurd hsp (splitChar_ne_nil sep cs)
      | cons h t =>
        rw [hsp] at ih
        simp only [List.length_cons] at ih ⊢
        have hbe : (c == sep) = false := by
          simp [hc]
        simp [List.count_cons, hbe, ih]

theorem splitStr_ne_nil (sep : Char) (s : String) : splitStr sep s ≠ [] := by
  simp only [splitStr, ne_eq, List.map_eq_nil_iff]
  exact splitChar_ne_nil sep s.data

theorem fold_params_error_iff (es : List String) (acc : Params) :
    (∃ msg, fold_params acc es = Except.error msg) ↔
      ∃ e ∈ es, ¬(splitStr '=' e).length = 2 := by
  induction es generalizing acc with
  | nil => simp [fold_params]
  | cons e es ih =>
    have hlen : ((splitStr '=' e).map (fun s => lowerStr (trimStr s))).length =
        (splitStr '=' e).length := List.length_map _ _
    rcases hL : (splitStr '=' e).map (fun s => lowerStr (trimStr s)) with
      _ | ⟨a, _ | ⟨b, _ | ⟨c, tl⟩⟩⟩ <;> rw [hL] at hlen
    · simp only [fold_params, param_step, hL, List.mem_cons]
      constructor
      · intro _
        exact ⟨e, Or.inl rfl, by simp at hlen; omega⟩
      · intro _
        exact ⟨"Extra parameters should be provided in `key = value` format!", rfl⟩
    · simp only [fold_params, param_step, hL, List.mem_cons]
      constructor
      · intro _
        exact ⟨e, Or.inl rfl, by simp at hlen; omega⟩
      · intro _
        exact ⟨"Extra parameters should be provided in `key = value` format!", rfl⟩
    · simp only [fold_params, param_step, hL, List.mem_cons]
      rw [ih _]
      constructor
      · rintro ⟨x, hx, hxl⟩
        exact ⟨x, Or.inr hx, hxl⟩
      · rintro ⟨x, hx, hxl⟩
        rcases hx with hx | hx
        · subst hx
          have h2 : (splitStr '=' x).length = 2 := by
            simpa using hlen.symm
          exact absurd h2 hxl
        · exact ⟨x, hx, hxl⟩
    · simp only [fold_params, param_step, hL, List.mem_cons]
      constructor
      · intro _
        exact ⟨e, Or.inl rfl, by simp at hlen; omega⟩
      · intro _
        exact ⟨"Extra parameters should be provided in `key = value` format!", rfl⟩

/-- Claim C7: invocation-argument parsing fails exactly when some option
element after the mock reference does not split on `=` into exactly two
parts, i.e. does not contain exactly one `=` separator. -/
theorem parse_params_error_iff (argsStr : String) :
    ((∃ msg, parse_params argsStr = Except.error msg) ↔
      ∃ e ∈ ((splitStr ',' argsStr).map trimStr).tail, ¬(splitStr '=' e).length = 2) ∧
    (∀ e : String, (splitStr '=' e).length = 2 ↔ e.data.count '=' = 1) := by
  constructor
  · cases hL : (splitStr ',' argsStr).map trimStr with
    | nil =>
      exact absurd (List.map_eq_nil_iff.mp hL) (splitStr_ne_nil ',' argsStr)
    | cons first rest =>
      simp only [parse_params, hL, List.tail_cons]
      exact fold_params_error_iff rest _
  · intro e
    rw [splitStr, List.length_map, splitChar_length]
    omega

theorem mapGet_mapInsert_self (m : List (String × String)) (k v : String) :
    mapGet (mapInsert m k v) k = Option.some v := by
  induction m with
  | nil => simp [mapInsert, mapGet]
  | cons kv m ih =>
    obtain ⟨a, b⟩ := kv
    by_cases ha : a = k
    · simp [mapInsert, ha, mapGet]
    · simp [mapInsert, ha, mapGet, ih]

theorem mapGet_mapInsert_ne (m : List (String × String)) (k v k' : String) (h : k' ≠ k) :
    mapGet (mapInsert m k v) k' = mapGet m k' := by
  induction m with
  | nil =>
    simp [mapInsert, mapGet, Ne.symm h]
  | cons kv m ih =>
    obtain ⟨a, b⟩ := kv
    by_cases ha : a = k
    · subst ha
      simp [mapInsert, mapGet, Ne.symm h]
    · simp only [mapInsert, ha, if_false]
      by_cases hak : a = k'
      · simp [mapGet, hak]
      · simp [mapGet, hak, ih]

theorem mem_mapInsert (m : List (String × String)) (k v : String) (kv : String × String)
    (h : kv ∈ mapInsert m k v) : kv = (k, v) ∨ kv ∈ m := by
  induction m with
  | nil => simpa [mapInsert] using h
  | cons ab m ih =>
    obtain ⟨a, b⟩ := ab
    by_cases ha : a = k
    · rw [mapInsert, if_pos ha] at h
      rcases List.mem_cons.mp h with h | h
      · exact Or.inl h
      · exact Or.inr (List.mem_cons_of_mem _ h)
    · rw [mapInsert, if_neg ha] at h
      rcases List.mem_cons.mp h with h | h
      · exact Or.inr (by simp [h])
      · rcases ih h with h | h
        · exact Or.inl h
        · exact Or.inr (List.mem_cons_of_mem _ h)

theorem fold_params_lookup (es : List String) (acc p : Params)
    (h : fold_params acc es = Except.ok p) (k : String) :
    mapGet p.options k =
      (match (optionWrites k es).getLast? with
       | Option.some v => Option.some v
       | Option.none => mapGet acc.options k) := by
  induction es generalizing acc with
  | nil =>
    simp only [fold_params, Except.ok.injEq] at h
    subst h
    simp [optionWrites]
  | cons e es ih =>
    rcases hL : (splitStr '=' e).map (fun s => lowerStr (trimStr s)) with
      _ | ⟨a, _ | ⟨b, _ | ⟨c, tl⟩⟩⟩
    · simp [fold_params, param_step, hL] at h
    · simp [fold_params, param_step, hL] at h
    · simp only [fold_params, param_step, hL] at h
      rw [ih _ h]
      simp only [optionWrites, hL]
      by_cases hak : a = k
      · subst hak
        rw [if_pos rfl]
        cases hws : (optionWrites a es).getLast? with
        | none =>
          have hnil : optionWrites a es = [] := List.getLast?_eq_none_iff.mp hws
          rw [hnil]
          simp [mapGet_mapInsert_self]
        | some v =>
          have hne : optionWrites a es ≠ [] := by
            intro hnil
            rw [hnil] at hws
            cases hws
          rw [List.getLast?_append_of_ne_nil _ hne, hws]
      · rw [if_neg hak]
        simp only [List.nil_append]
        cases hws : (optionWrites k es).getLast? with
        | none => simp [mapGet_mapInsert_ne _ _ _ _ (fun he => hak he.symm)]
        | some v => rfl
    · simp [fold_params, param_step, hL] at h

theorem fold_params_mem (es : List String) (acc p : Params)
    (h : fold_params acc es = Except.ok p) (kv : String × String)
    (hm : kv ∈ p.options) :
    kv ∈ acc.options ∨
      ∃ e ∈ es, (splitStr '=' e).map (fun s => lowerStr (trimStr s)) = [kv.1, kv.2] := by
  induction es generalizing acc with
  | nil =>
    simp only [fold_params, Except.ok.injEq] at h
    subst h
    exact Or.inl hm
  | cons e es ih =>
    rcases hL : (splitStr '=' e).map (fun s => lowerStr (trimStr s)) with
      _ | ⟨a, _ | ⟨b, _ | ⟨c, tl⟩⟩⟩
    · simp [fold_params, param_step, hL] at h
    · simp [fold_params, param_step, hL] at h
    · simp only [fold_params, param_step, hL] at h
      rcases ih _ h with hacc | ⟨x, hx, hxx⟩
      · rcases mem_mapInsert _ _ _ _ hacc with he | he
        · refine Or.inr ⟨e, List.mem_cons_self _ _, ?_⟩
          rw [hL, he]
        · exact Or.inl he
      · exact Or.inr ⟨x, List.mem_cons_of_mem _ hx, hxx⟩
    · simp [fold_params, param_step, hL] at h

/-- Claim C8: for a successfully parsed option list, looking up any key in
the resulting options map yields exactly the last value written to that key
by the (trimmed, lower-cased) option elements, and every stored binding
comes from some element's trimmed, lower-cased `key`/`value` parts. -/
theorem parse_params_options_last_write (argsStr : String) (p : Params) (k : String)
    (h : parse_params argsStr = Except.ok p) :
    mapGet p.options k =
      (optionWrites k (((splitStr ',' argsStr).map trimStr).tail)).getLast? ∧
    p.options.all
      (fun kv => (((splitStr ',' argsStr).map trimStr).tail).any
        (fun e => (splitStr '=' e).map (fun s => lowerStr (trimStr s)) == [kv.1, kv.2])) = true := by
  cases hL : (splitStr ',' argsStr).map trimStr with
  | nil => exact absurd (List.map_eq_nil_iff.mp hL) (splitStr_ne_nil ',' argsStr)
  | cons first rest =>
    simp only [parse_params, hL] at h
    constructor
    · rw [List.tail_cons, fold_params_lookup rest _ p h k]
      cases (optionWrites k rest).getLast? <;> simp [mapGet]
    · rw [List.all_eq_true]
      intro kv hkv
      rcases fold_params_mem rest _ p h kv hkv with hacc | ⟨e, he, hee⟩
      · exact absurd hacc (List.not_mem_nil _)
      · rw [List.tail_cons, List.any_eq_true]
        exact ⟨e, he, by simp [hee]⟩

/-- Witness for C8 at a duplicate-key option list: in
`"r, a = b, A=c"` the key `a` (from both `a = b` and the lower-cased
`A=c`) maps to the last write `c`. -/
theorem parse_params_options_last_write_witness :
    mapGet ({ reference := "r", options := [("a", "c")] } : Params).options "a" =
      (optionWrites "a" (((splitStr ',' "r, a = b, A=c").map trimStr).tail)).getLast? :=
  (parse_params_options_last_write "r, a = b, A=c"
    { reference := "r", options := [("a", "c")] } "a" rfl).1

theorem mockedStep_mono (pfx : String) (st : ScanState) (t : Token) (st' : ScanState)
    (h : mockedStep pfx st t = Option.some st') :
    Stage.rank st.stage ≤ Stage.rank st'.stage := by
  cases t with
  | ident name =>
    simp only [mockedStep] at h
    split at h
    · rename_i hc
      simp only [Option.some.injEq] at h
      subst h
      show Stage.rank st.stage ≤ Stage.rank Stage.FnIdentFound
      simp only [cmp, Stage.rank] at hc ⊢
      omega
    · split at h
      · rename_i hc2
        simp only [Option.some.injEq] at h
        subst h
        show Stage.rank st.stage ≤ Stage.rank Stage.FnNameFound
        simp only [cmp, Stage.rank] at hc2 ⊢
        omega
      · simp only [Option.some.injEq] at h
        subst h
        exact le_refl _
  | punct s =>
    simp only [mockedStep, Option.some.injEq] at h
    subst h
    exact le_refl _
  | lit s =>
    simp only [mockedStep, Option.some.injEq] at h
    subst h
    exact le_refl _
  | group d inner =>
    simp only [mockedStep] at h
    split at h
    · rename_i hc
      cases hpa : parse_args inner with
      | none => rw [hpa] at h; cases h
      | some s =>
        rw [hpa] at h
        simp only [Option.some.injEq] at h
        subst h
        show Stage.rank st.stage ≤ Stage.rank Stage.FnArgsFound
        simp only [cmp, Stage.rank] at hc ⊢
        omega
    · split at h
      · rename_i hc2
        simp only [Option.some.injEq] at h
        subst h
        show Stage.rank st.stage ≤ Stage.rank Stage.FnBodyFound
        simp only [cmp, Stage.rank] at hc2 ⊢
        omega
      · simp only [Option.some.injEq] at h
        subst h
        exact le_refl _

theorem scanFrom_mono (pfx : String) (ts : List Token) (st st' : ScanState)
    (h : scanFrom pfx st ts = Option.some st') :
    Stage.rank st.stage ≤ Stage.rank st'.stage := by
  induction ts generalizing st with
  | nil =>
    simp only [scanFrom, Option.some.injEq] at h
    subst h
    exact le_refl _
  | cons t ts ih =>
    simp only [scanFrom] at h
    cases hstep : mockedStep pfx st t with
    | none => rw [hstep] at h; cases h
    | some st1 =>
      rw [hstep] at h
      exact le_trans (mockedStep_mono pfx st t st1 hstep) (ih st1 h)

/-- Claim C9: the scan stage of the dispatcher rewriter only increases —
each loop iteration maps a state to a state of greater or equal stage rank,
and the whole left-to-right scan never returns to a lower stage. -/
theorem scan_stage_monotone :
    (∀ (pfx : String) (st : ScanState) (t : Token) (st' : ScanState),
        mockedStep pfx st t = Option.some st' →
        Stage.rank st.stage ≤ Stage.rank st'.stage) ∧
    (∀ (pfx : String) (st : ScanState) (ts : List Token) (st' : ScanState),
        scanFrom pfx st ts = Option.some st' →
        Stage.rank st.stage ≤ Stage.rank st'.stage) :=
  ⟨mockedStep_mono, fun pfx st ts st' h => scanFrom_mono pfx ts st st' h⟩

/-- Witness for C9 at a concrete step: scanning the `fn` keyword from the
initial state advances the stage rank from `Start` to `FnIdentFound`. -/
theorem scan_stage_monotone_witness :
    Stage.rank Stage.Start ≤ Stage.rank Stage.FnIdentFound :=
  scan_stage_monotone.1 "_" initScan (Token.ident "fn")
    { initScan with
      stage := Stage.FnIdentFound,
      signature := initScan.signature ++ [Token.ident "fn"],
      original := initScan.original ++ [Token.ident "fn"] } rfl

theorem mockedStep_impl_inv (pfx : String) (st : ScanState) (t : Token) (st' : ScanState)
    (h : mockedStep pfx st t = Option.some st')
    (hinv : st.is_impl_scope =
      (startsWithStr st.fn_args_string "self," || st.fn_args_string == "self")) :
    st'.is_impl_scope =
      (startsWithStr st'.fn_args_string "self," || st'.fn_args_string == "self") := by
  cases t with
  | ident name =>
    simp only [mockedStep] at h
    split at h
    · simp only [Option.some.injEq] at h
      subst h
      exact hinv
    · split at h
      · simp only [Option.some.injEq] at h
        subst h
        exact hinv
      · simp only [Option.some.injEq] at h
        subst h
        exact hinv
  | punct s =>
    simp only [mockedStep, Option.some.injEq] at h
    subst h
    exact hinv
  | lit s =>
    simp only [mockedStep, Option.some.injEq] at h
    subst h
    exact hinv
  | group d inner =>
    simp only [mockedStep] at h
    split at h
    · cases hpa : parse_args inner with
      | none => rw [hpa] at h; cases h
      | some s =>
        rw [hpa] at h
        simp only [Option.some.injEq] at h
        subst h
        rfl
    · split at h
      · simp only [Option.some.injEq] at h
        subst h
        exact hinv
      · simp only [Option.some.injEq] at h
        subst h
        exact hinv

theorem scanFrom_impl_inv (pfx : String) (ts : List Token) (st st' : ScanState)
    (h : scanFrom pfx st ts = Option.some st')
    (hinv : st.is_impl_scope =
      (startsWithStr st.fn_args_string "self," || st.fn_args_string == "self")) :
    st'.is_impl_scope =
      (startsWithStr st'.fn_args_string "self," || st'.fn_args_string == "self") := by
  induction ts generalizing st with
  | nil =>
    simp only [scanFrom, Option.some.injEq] at h
    subst h
    exact hinv
  | cons t ts ih =>
    simp only [scanFrom] at h
    cases hstep : mockedStep pfx st t with
    | none => rw [hstep] at h; cases h
    | some st1 =>
      rw [hstep] at h
      exact ih st1 h (mockedStep_impl_inv pfx st t st1 hstep hinv)

theorem mockedScanList_impl_inv (pfx : String) (input : List Token) (st : ScanState)
    (h : mockedScanList pfx input = Option.some st) :
    st.is_impl_scope =
      (startsWithStr st.fn_args_string "self," || st.fn_args_string == "self") :=
  scanFrom_impl_inv pfx input initScan st h rfl

theorem scope_filter_isSome (o : Option String) :
    ((o.filter (fun scope => scope == "impl")).isSome = true) ↔ o = Option.some "impl" := by
  cases o with
  | none => simp [Option.filter]
  | some v =>
    by_cases hv : v = "impl"
    · subst hv
      simp [Option.filter]
    · simp [Option.filter, hv]

/-- Claim C3: the non-test delegate call of the generated dispatcher is
qualified with `Self::` exactly when the reconstructed argument-list string
is `self` or begins with `self,`, or the invocation options map key
`scope` to `impl`; otherwise the call target is left bare. -/
theorem mocked_self_qualification (pfx argsStr : String) (input : List Token)
    (p : Params) (st : ScanState) (ps : CodeParts)
    (hp : parse_params argsStr = Except.ok p)
    (hscan : mockedScanList pfx input = Option.some st)
    (hparts : mockedParts pfx argsStr input = Option.some ps) :
    (ps.fq = "Self::" ↔
      (st.fn_args_string = "self" ∨ startsWithStr st.fn_args_string "self," = true ∨
        mapGet p.options "scope" = Option.some "impl")) ∧
    (ps.fq = "Self::" ∨ ps.fq = "") := by
  have hinv := mockedScanList_impl_inv pfx input st hscan
  simp only [mockedParts, hp, hscan, Option.some.injEq] at hparts
  subst hparts
  cases hcb : (st.is_impl_scope ||
      ((mapGet p.options "scope").filter (fun scope => scope == "impl")).isSome) with
  | true =>
    rcases Bool.or_eq_true_iff.mp hcb with himpl | hopt
    · rw [himpl] at hinv
      rcases Bool.or_eq_true_iff.mp hinv.symm with hsw | hbe
      · refine ⟨?_, ?_⟩
        · simp only [hcb, if_true]
          exact ⟨fun _ => Or.inr (Or.inl hsw), fun _ => trivial⟩
        · simp [hcb]
      · refine ⟨?_, ?_⟩
        · simp only [hcb, if_true]
          exact ⟨fun _ => Or.inl (by simpa using hbe), fun _ => trivial⟩
        · simp [hcb]
    · refine ⟨?_, ?_⟩
      · simp only [hcb, if_true]
        exact ⟨fun _ => Or.inr (Or.inr ((scope_filter_isSome _).mp hopt)), fun _ => trivial⟩
      · simp [hcb]
  | false =>
    have hor := Bool.or_eq_false_iff.mp hcb
    rw [hor.1] at hinv
    have hboth := Bool.or_eq_false_iff.mp hinv.symm
    refine ⟨?_, ?_⟩
    · simp only [hcb, if_false]
      constructor
      · intro hcontra
        exact absurd hcontra (by decide)
      · rintro (hself | hsw | hsc)
        · rw [hself] at hboth
          simp at hboth
        · rw [hsw] at hboth
          simp at hboth
        · have := (scope_filter_isSome (mapGet p.options "scope")).mpr hsc
          rw [hor.2] at this
          cases this
    · simp [hcb]

/-- Witness for C3 at a method whose sole parameter is the receiver: the
delegate call is `Self::`-qualified, and the equivalence holds at the
concrete scan state and parsed parameters. -/
theorem mocked_self_qualification_witness :
    ("Self::" = "Self::" ↔
      ("self" = "self" ∨ startsWithStr "self" "self," = true ∨
        mapGet ([] : List (String × String)) "scope" = Option.some "impl")) :=
  (mocked_self_qualification "_" "m"
    [Token.ident "fn", Token.ident "baz", Token.group Delim.paren [Token.ident "self"]]
    { reference := "m", options := [] }
    { stage := Stage.FnArgsFound,
      original := [Token.ident "fn", Token.ident "_baz",
        Token.group Delim.paren [Token.ident "self"]],
      signature := [Token.ident "fn", Token.ident "baz",
        Token.group Delim.paren [Token.ident "self"]],
      fn_orig_name := "_baz", fn_args_string := "self", is_impl_scope := true }
    { fn_original := "pub fn _baz (self)", fn_orig_name := "_baz", fn_mock_name := "m",
      signature := "fn baz (self)", arguments := "(self)", fq := "Self::" }
    rfl rfl rfl).1

theorem mockedStep_args_frozen (pfx : String) (st : ScanState) (t : Token)
    (h3 : 3 ≤ Stage.rank st.stage) :
    ∃ st', mockedStep pfx st t = Option.some st' ∧
      st'.fn_args_string = st.fn_args_string ∧ 3 ≤ Stage.rank st'.stage := by
  cases t with
  | ident name =>
    have h1 : ¬(cmp st.stage Stage.FnIdentFound < 0 ∧ name = "fn") := by
      intro hc
      have hc1 := hc.1
      simp only [cmp, Stage.rank] at hc1 h3
      omega
    have h2 : ¬(cmp st.stage Stage.FnIdentFound = 0) := by
      intro hc
      simp only [cmp, Stage.rank] at hc h3
      omega
    refine ⟨stepDefault st (Token.ident name), ?_, rfl, h3⟩
    simp only [mockedStep, if_neg h1, if_neg h2]
  | punct s => exact ⟨stepDefault st (Token.punct s), rfl, rfl, h3⟩
  | lit s => exact ⟨stepDefault st (Token.lit s), rfl, rfl, h3⟩
  | group d inner =>
    have h1 : ¬(cmp st.stage Stage.FnArgsFound < 0 ∧ d = Delim.paren) := by
      intro hc
      have hc1 := hc.1
      simp only [cmp, Stage.rank] at hc1 h3
      omega
    by_cases h2 : cmp st.stage Stage.FnBodyFound < 0 ∧ d = Delim.brace
    · refine ⟨{ st with
          stage := Stage.FnBodyFound,
          original := st.original ++ [Token.group d inner] }, ?_, rfl, ?_⟩
      · simp only [mockedStep, if_neg h1, if_pos h2]
      · simp [Stage.rank]
    · refine ⟨stepDefault st (Token.group d inner), ?_, rfl, h3⟩
      simp only [mockedStep, if_neg h1, if_neg h2]

theorem scanFrom_args_frozen (pfx : String) (ts : List Token) (st : ScanState)
    (h3 : 3 ≤ Stage.rank st.stage) :
    ∃ st', scanFrom pfx st ts = Option.some st' ∧
      st'.fn_args_string = st.fn_args_string ∧ 3 ≤ Stage.rank st'.stage := by
  induction ts generalizing st with
  | nil => exact ⟨st, rfl, rfl, h3⟩
  | cons t ts ih =>
    obtain ⟨st1, hstep, hargs1, hr1⟩ := mockedStep_args_frozen pfx st t h3
    obtain ⟨st', hs, hargs2, hr2⟩ := ih st1 hr1
    refine ⟨st', ?_, hargs2.trans hargs1, hr2⟩
    simp only [scanFrom, hstep]
    exact hs

/-- Claim C6: a function with an empty parameter list gets the empty
argument-list string from `parse_args`, and the generated delegate calls
use the empty call form `()`. -/
theorem empty_params_empty_call (pfx name argsStr : String) (rest : List Token) :
    parse_args [] = Option.some "" ∧
    (mockedScanList pfx
        (Token.ident "fn" :: Token.ident name :: Token.group Delim.paren [] :: rest)).map
      (fun st => st.fn_args_string) = Option.some "" ∧
    (mockedParts pfx argsStr
        (Token.ident "fn" :: Token.ident name :: Token.group Delim.paren [] :: rest)).all
      (fun ps => ps.arguments == "()") = true := by
  obtain ⟨st', hs, hargs, _⟩ := scanFrom_args_frozen pfx rest
    { stage := Stage.FnArgsFound,
      original := [Token.ident "fn", Token.ident (pfx ++ name), Token.group Delim.paren []],
      signature := [Token.ident "fn", Token.ident ("" ++ name), Token.group Delim.paren []],
      fn_orig_name := pfx ++ name,
      fn_args_string := "",
      is_impl_scope := false } (by norm_num [Stage.rank])
  have hargs' : st'.fn_args_string = "" := hargs
  have hscan : mockedScanList pfx
      (Token.ident "fn" :: Token.ident name :: Token.group Delim.paren [] :: rest) =
      Option.some st' := by
    rw [← hs]
    rfl
  refine ⟨rfl, ?_, ?_⟩
  · rw [hscan]
    simp [hargs']
  · cases hp : parse_params argsStr with
    | error e => simp [mockedParts, hp]
    | ok p =>
      simp only [mockedParts, hp, hscan, Option.all]
      rw [hargs']
      decide

end Covers
